import Mathlib

/-!
Shallow embedding of `esdalmaijer/analysis_kit`: `permutation.py`
(`permutation_test`) and `helpers.py` (`_run_permutations`).

Conventions of the embedding:
* observations are rationals (`ℚ`); all concrete inputs used below have
  exactly-representable float means, so the rational model agrees with the
  Python float computation on them;
* the design matrix `dm` is a `List Bool` (`false` = label `0`, i.e. sample
  `x`; `true` = label `1`, i.e. sample `y`);
* `itertools.permutations(dm)` enumerates value tuples following the
  lexicographic order of index permutations; `nthPerm dm k` produces the
  `k`-th element of that enumeration via the factorial number system;
* `itertools.islice(permutations, si, ei)` yields indices
  `si ≤ k < min ei n!`, which is what `run_permutations` folds over;
* `int(numpy.floor(a / float(b)))` is modelled as exact natural floor
  division (they agree whenever the quotient is exactly representable,
  in particular on every concrete case considered here);
* a raised exception in `permutation_test` (the `ZeroDivisionError` from
  `p = overT / float(Nperms)` when `Nperms = 0`) is modelled by the result
  `none`; the code contains no other reachable error path for the inputs
  representable in this model.
-/

namespace AnalysisKit

/-- `numpy.mean` over a rational list (division by zero yields `0` where
numpy would produce `NaN`; this case is only reached when a sample is
empty, which no claim settled through means allows). -/
def mean (l : List ℚ) : ℚ := l.sum / (l.length : ℚ)

/-- `obs[labels == b]`: the observations whose label equals `b`, in order. -/
def selectBy (obs : List ℚ) (labels : List Bool) (b : Bool) : List ℚ :=
  (obs.zip labels).filterMap (fun p => if p.2 = b then some p.1 else none)

/-- `numpy.mean(obs[dm==0]) - numpy.mean(obs[dm==1])`, the per-permutation
difference-of-means statistic. -/
def permStat (obs : List ℚ) (labels : List Bool) : ℚ :=
  mean (selectBy obs labels false) - mean (selectBy obs labels true)

/-- The `k`-th permutation of `l` in the order `itertools.permutations`
yields (lexicographic over index sequences), by factorial-base digits.
`fuel` is the length of the list, threaded explicitly for termination. -/
def nthPermAux : Nat → List Bool → Nat → List Bool
  | 0, _, _ => []
  | _ + 1, [], _ => []
  | fuel + 1, a :: rest, k =>
    let f := Nat.factorial rest.length
    let i := min (k / f) rest.length
    (a :: rest).getD i a :: nthPermAux fuel ((a :: rest).eraseIdx i) (k % f)

/-- `itertools.permutations(dm)`'s `k`-th output (`k < (dm.length)!`). -/
def nthPerm (dm : List Bool) (k : Nat) : List Bool :=
  nthPermAux dm.length dm k

/-- The tail rule of `_run_permutations`: two-tailed compares magnitudes
(`numpy.abs(permT) >= numpy.abs(obsT)`), one-tailed compares values
(`permT >= obsT`). -/
def exceeds (twotailed : Bool) (obsT permT : ℚ) : Bool :=
  if twotailed then decide (|obsT| ≤ |permT|) else decide (obsT ≤ permT)

/-- One iteration of the worker loop in `_run_permutations`: compute the
statistic of permutation `k`, bump the exceed count per the tail rule, and
update the running maximum (`if permT > maxT: maxT = 0 + permT`). -/
def workerStep (obs : List ℚ) (dm : List Bool) (obsT : ℚ) (twotailed : Bool)
    (acc : ℚ × Nat) (k : Nat) : ℚ × Nat :=
  let permT := permStat obs (nthPerm dm k)
  let overT := if exceeds twotailed obsT permT then acc.2 + 1 else acc.2
  let maxT := if acc.1 < permT then permT else acc.1
  (maxT, overT)

/-- The permutation indices `itertools.islice(permutations(dm), si, ei)`
actually yields: `si ≤ k < min ei (dm.length)!` (the iterator is exhausted
after `(dm.length)!` outputs). -/
def evalIdxs (dm : List Bool) (si ei : Nat) : List Nat :=
  List.range' si (min ei (Nat.factorial dm.length) - si)

/-- `helpers._run_permutations` on slice `(dm, si, ei)`: fold the worker
step over the indices `islice(permutations(dm), si, ei)` actually yields,
starting from `maxT = 0, overT = 0`; returns `(maxT, overT)`. -/
def run_permutations (dm : List Bool) (si ei : Nat) (obs : List ℚ)
    (obsT : ℚ) (twotailed : Bool) : ℚ × Nat :=
  (evalIdxs dm si ei).foldl (workerStep obs dm obsT twotailed) (0, 0)

/-- The slice list built by `permutation_test` from `Nperms`, `Nallperms`
and the worker count `cpus` (the `SLICES` section of `permutation.py`). -/
def slicesCore (Nperms Nall cpus : Nat) : List (Nat × Nat) :=
  let slicesize := if cpus > 1 then Nperms / cpus else Nperms
  let maxslicesize := if cpus > 1 then Nall / cpus else slicesize
  let firsts := (List.range (cpus - 1)).map (fun i =>
    (i * slicesize + i * (maxslicesize - slicesize),
     i * slicesize + i * (maxslicesize - slicesize) + slicesize))
  let lastsi := if cpus - 1 = 0 then 0 else (cpus - 1) * slicesize
  firsts ++ [(lastsi, Nperms)]

/-- `numpy.concatenate((x, y))`. -/
def obsOf (x y : List ℚ) : List ℚ := x ++ y

/-- `numpy.concatenate((numpy.zeros(len(x)), numpy.ones(len(y))))`. -/
def dmOf (x y : List ℚ) : List Bool :=
  List.replicate x.length false ++ List.replicate y.length true

/-- `obsT = numpy.mean(obs[dm==0]) - numpy.mean(obs[dm==1])`. -/
def obsTOf (x y : List ℚ) : ℚ := permStat (obsOf x y) (dmOf x y)

/-- `Nallperms = math.factorial(len(dm))`. -/
def NallOf (x y : List ℚ) : Nat := Nat.factorial (x.length + y.length)

/-- `Nperms`: the cap applies when given and smaller than `Nallperms`. -/
def NpermsOf (x y : List ℚ) (maxperm : Option Nat) : Nat :=
  match maxperm with
  | some m => if NallOf x y > m then m else NallOf x y
  | none => NallOf x y

/-- The `MULTIPROCESSING` section: `cpus = 1` when `maxcpu == 1`, else
start from `multiprocessing.cpu_count()` and lower to `maxcpu` when a
`maxcpu` was given and is smaller (`Int` because the code never rejects a
non-positive `maxcpu`; `Int.toNat` is behaviourally equivalent to the
negative worker counts, which build the same single-slice list). -/
def cpusOf (maxcpu : Option Int) (cpuCount : Nat) : Nat :=
  if maxcpu = some 1 then 1
  else
    match maxcpu with
    | some m => if m < (cpuCount : Int) then m.toNat else cpuCount
    | none => cpuCount

/-- The slice list of a `permutation_test` invocation. -/
def slicesOf (x y : List ℚ) (maxperm : Option Nat) (maxcpu : Option Int)
    (cpuCount : Nat) : List (Nat × Nat) :=
  slicesCore (NpermsOf x y maxperm) (NallOf x y) (cpusOf maxcpu cpuCount)

/-- The `(maxT, overT)` pairs the queue collects, one per slice (ordering
is irrelevant to the reduction, which is a `max` and a sum). -/
def workerResults (x y : List ℚ) (twotailed : Bool) (maxperm : Option Nat)
    (maxcpu : Option Int) (cpuCount : Nat) : List (ℚ × Nat) :=
  (slicesOf x y maxperm maxcpu cpuCount).map (fun s =>
    run_permutations (dmOf x y) s.1 s.2 (obsOf x y) (obsTOf x y) twotailed)

/-- `overT`: the sum of the workers' exceed counts. -/
def overTOf (x y : List ℚ) (twotailed : Bool) (maxperm : Option Nat)
    (maxcpu : Option Int) (cpuCount : Nat) : Nat :=
  ((workerResults x y twotailed maxperm maxcpu cpuCount).map Prod.snd).sum

/-- `maxT`: the queue-drain reduction `if maxT < mt: maxT = 0 + mt`,
seeded at `0`. -/
def maxTOf (x y : List ℚ) (twotailed : Bool) (maxperm : Option Nat)
    (maxcpu : Option Int) (cpuCount : Nat) : ℚ :=
  ((workerResults x y twotailed maxperm maxcpu cpuCount).map Prod.fst).foldl
    (fun a b => if a < b then b else a) 0

/-- `permutation.permutation_test(x, y, twotailed, maxperm, maxcpu)` on a
host with `cpuCount` CPUs. Returns `some (obsT, p, Nperms, maxT)`; `none`
models the `ZeroDivisionError` raised by `p = overT / float(Nperms)` when
`Nperms = 0` (the only exception reachable in this model — the code
performs no input validation). -/
def permutation_test (x y : List ℚ) (twotailed : Bool)
    (maxperm : Option Nat) (maxcpu : Option Int) (cpuCount : Nat) :
    Option (ℚ × ℚ × Nat × ℚ) :=
  let Nperms := NpermsOf x y maxperm
  if Nperms = 0 then none
  else some (obsTOf x y,
    (overTOf x y twotailed maxperm maxcpu cpuCount : ℚ) / (Nperms : ℚ),
    Nperms,
    maxTOf x y twotailed maxperm maxcpu cpuCount)

/-- The concatenation of all slices' actually-evaluated permutation
indices, in dispatch order. -/
def evaluatedIndices (x y : List ℚ) (maxperm : Option Nat)
    (maxcpu : Option Int) (cpuCount : Nat) : List Nat :=
  (slicesOf x y maxperm maxcpu cpuCount).flatMap (fun s =>
    evalIdxs (dmOf x y) s.1 s.2)

/-- How many of the slice ranges `[s.1, s.2)` in `l` contain `k`. -/
def countCover (l : List (Nat × Nat)) (k : Nat) : Nat :=
  l.countP (fun s => decide (s.1 ≤ k ∧ k < s.2))

/-- The ranges `[s.1, s.2)` of `l` are pairwise disjoint and their union
is exactly `[0, N)`: every `k < N` is covered by exactly one of them and
no `k ≥ N` is covered at all. -/
def exactCover (l : List (Nat × Nat)) (N : Nat) : Prop :=
  ∀ k, countCover l k = if k < N then 1 else 0

section Lemmas

/-- The worker's running-maximum update is a `max`. -/
theorem ite_lt_max (a b : ℚ) : (if a < b then b else a) = max a b := by
  rcases lt_or_le a b with h | h
  · simp [h, max_eq_right h.le]
  · simp [not_lt.2 h, max_eq_left h]

/-- `foldl max` commutes with bumping the seed. -/
theorem foldl_max_comm (l : List ℚ) :
    ∀ a b : ℚ, l.foldl max (max a b) = max (l.foldl max a) b := by
  induction l with
  | nil => intro a b; rfl
  | cons c l ih =>
    intro a b
    simp only [List.foldl_cons]
    rw [show max (max a b) c = max (max a c) b by
      rw [max_assoc, max_comm b c, ← max_assoc], ih]

/-- The seed is a lower bound of a `foldl max`. -/
theorem le_foldl_max (l : List ℚ) : ∀ a : ℚ, a ≤ l.foldl max a := by
  induction l with
  | nil => intro a; exact le_refl a
  | cons c l ih =>
    intro a
    exact le_trans (le_max_left a c) (ih (max a c))

/-- Folding `max` from seed `0` over a concatenation of blocks equals the
fold of the per-block folds: the per-slice local maxima reduce to the
global maximum over all evaluated statistics. -/
theorem foldl_max_flatten (L : List (List ℚ)) :
    (L.map (fun l => l.foldl max 0)).foldl max 0 =
      L.flatten.foldl max (0 : ℚ) := by
  induction L with
  | nil => rfl
  | cons l L ih =>
    simp only [List.map_cons, List.foldl_cons, List.flatten_cons,
      List.foldl_append]
    rw [show max (0 : ℚ) (l.foldl max 0) = l.foldl max 0 from
      max_eq_right (le_foldl_max l 0)]
    rw [show l.foldl max 0 = max (0 : ℚ) (l.foldl max 0) from
      (max_eq_right (le_foldl_max l 0)).symm, foldl_max_comm,
      ih, ← foldl_max_comm,
      show max (0 : ℚ) (l.foldl max 0) = l.foldl max 0 from
        max_eq_right (le_foldl_max l 0)]

/-- A sum of `0/1` indicators is a `countP`. -/
theorem sum_ite_one {α : Type} (l : List α) (p : α → Bool) :
    (l.map (fun a => if p a then 1 else 0)).sum = l.countP p := by
  induction l with
  | nil => rfl
  | cons a l ih =>
    rcases h : p a <;>
      simp [List.countP_cons, h, ih, Nat.add_comm]

/-- One worker step, written as a `max` on the first component and an
indicator increment on the second. -/
theorem step_pair_eq (obs : List ℚ) (dm : List Bool) (obsT : ℚ) (tt : Bool)
    (m : ℚ) (c : Nat) (k : Nat) :
    workerStep obs dm obsT tt (m, c) k =
      (max m (permStat obs (nthPerm dm k)),
       c + if exceeds tt obsT (permStat obs (nthPerm dm k)) then 1 else 0) := by
  rcases h : exceeds tt obsT (permStat obs (nthPerm dm k)) <;>
    simp [workerStep, ite_lt_max, h]

/-- The worker's fold computes the `max`-fold of the statistics in its
first component and the exceed count in its second. -/
theorem foldl_workerStep (obs : List ℚ) (dm : List Bool) (obsT : ℚ)
    (tt : Bool) (l : List Nat) :
    ∀ (m : ℚ) (c : Nat),
      l.foldl (workerStep obs dm obsT tt) (m, c) =
        ((l.map (fun k => permStat obs (nthPerm dm k))).foldl max m,
         c + l.countP (fun k => exceeds tt obsT (permStat obs (nthPerm dm k)))) := by
  induction l with
  | nil => intro m c; simp
  | cons k l ih =>
    intro m c
    simp only [List.foldl_cons, List.map_cons, List.countP_cons]
    rw [step_pair_eq, ih]
    simp only [Prod.mk.injEq]
    refine ⟨trivial, by omega⟩

/-- `_run_permutations` characterised: the reported local maximum is the
seed-`0` `max`-fold of the slice's statistics and the reported count is
the number of slice indices whose statistic meets the tail rule. -/
theorem run_permutations_eq (dm : List Bool) (si ei : Nat) (obs : List ℚ)
    (obsT : ℚ) (tt : Bool) :
    run_permutations dm si ei obs obsT tt =
      (((evalIdxs dm si ei).map (fun k => permStat obs (nthPerm dm k))).foldl max 0,
       (evalIdxs dm si ei).countP
         (fun k => exceeds tt obsT (permStat obs (nthPerm dm k)))) := by
  rw [run_permutations, foldl_workerStep]
  simp

/-- Index `0` of the enumeration is the unpermuted design matrix. -/
theorem nthPermAux_zero (l : List Bool) : nthPermAux l.length l 0 = l := by
  induction l with
  | nil => rfl
  | cons a rest ih =>
    simp only [nthPermAux, Nat.zero_div, Nat.zero_mod, Nat.zero_min,
      List.getD, List.eraseIdx]
    exact congrArg (a :: ·) ih

/-- Index `0` of the enumeration is the unpermuted design matrix. -/
theorem nthPerm_zero (dm : List Bool) : nthPerm dm 0 = dm :=
  nthPermAux_zero dm

/-- The design matrix has one label per observation. -/
theorem dmOf_length (x y : List ℚ) :
    (dmOf x y).length = x.length + y.length := by
  simp [dmOf]

/-- The cap never increases the permutation count. -/
theorem NpermsOf_le_NallOf (x y : List ℚ) (mp : Option Nat) :
    NpermsOf x y mp ≤ NallOf x y := by
  rcases mp with _ | m
  · exact le_refl _
  · simp only [NpermsOf]
    split <;> omega

/-- Counting which of the `m` equal-width blocks `[i*s, i*s + s)`,
`i < m`, contains `k`: exactly one when `k < m*s`, none otherwise. -/
theorem countP_blocks (s k : Nat) :
    ∀ m : Nat,
      (List.range m).countP (fun i => decide (i * s ≤ k ∧ k < i * s + s)) =
        if k < m * s then 1 else 0 := by
  intro m
  induction m with
  | zero => simp
  | succ m ih =>
    rw [List.range_succ, List.countP_append, ih]
    have hsucc : (m + 1) * s = m * s + s := by ring
    simp only [List.countP_cons, List.countP_nil, Nat.zero_add,
      decide_eq_true_eq]
    split_ifs <;> omega

/-- `(W-1) * (N / W) ≤ N`. -/
theorem pred_mul_div_le (N W : Nat) : (W - 1) * (N / W) ≤ N :=
  le_trans (Nat.mul_le_mul_right _ (Nat.sub_le W 1))
    (le_trans (le_of_eq (Nat.mul_comm W (N / W))) (Nat.div_mul_le_self N W))

/-- With fewer than two workers, a single slice `[0, Nperms)` is built. -/
theorem slicesCore_le_one (N N' W : Nat) (hW : W < 2) :
    slicesCore N N' W = [(0, N)] := by
  have hW1 : W - 1 = 0 := by omega
  have hgt : ¬ (W > 1) := by omega
  simp [slicesCore, hW1, hgt]

/-- With exactly two workers the slices are contiguous even when the cap
binds, because the only spread offset in play is `0`. -/
theorem slicesCore_two (N N' : Nat) :
    slicesCore N N' 2 = [(0, N / 2), (N / 2, N)] := by
  norm_num [slicesCore, show List.range 1 = [0] from rfl]

/-- With `W > 1` workers and a non-binding cap the slices are the `W - 1`
contiguous blocks of width `N / W` followed by the remainder slice. -/
theorem slicesCore_uncapped (N W : Nat) (hgt : W > 1) :
    slicesCore N N W =
      (List.range (W - 1)).map (fun i => (i * (N / W), i * (N / W) + N / W)) ++
        [((W - 1) * (N / W), N)] := by
  have hW1 : ¬ (W - 1 = 0) := by omega
  simp only [slicesCore, hgt, if_true, if_neg hW1, Nat.sub_self,
    Nat.mul_zero, Nat.add_zero]

/-- The general slice list for `W > 1` workers, spread offsets included. -/
theorem slicesCore_ge_two (N N' W : Nat) (hgt : W > 1) :
    slicesCore N N' W =
      (List.range (W - 1)).map (fun i =>
        (i * (N / W) + i * (N' / W - N / W),
         i * (N / W) + i * (N' / W - N / W) + N / W)) ++
        [((W - 1) * (N / W), N)] := by
  have hW1 : ¬ (W - 1 = 0) := by omega
  simp only [slicesCore, hgt, if_true, if_neg hW1]

/-- Although a capped run's slices need not partition `[0, Nperms)`, the
number of permutation indices actually evaluated (after `islice`
truncation at `Nall`) always sums to exactly `Nperms`: each of the first
`W - 1` slices fits inside `[0, Nall)` untruncated, and the remainder
slice has the complementary width. -/
theorem slicesCore_eval_length (N N' W : Nat) (hNN : N ≤ N') :
    ((slicesCore N N' W).map (fun s => min s.2 N' - s.1)).sum = N := by
  rcases Nat.lt_or_ge W 2 with hW | hW
  · rw [slicesCore_le_one N N' W hW]
    simp [Nat.min_eq_left hNN]
  · have hgt : W > 1 := by omega
    rw [slicesCore_ge_two N N' W hgt]
    have hlast : (W - 1) * (N' / W) ≤ N' := pred_mul_div_le N' W
    have hlastN : (W - 1) * (N / W) ≤ N := pred_mul_div_le N W
    have hsle : N / W ≤ N' / W := Nat.div_le_div_right hNN
    generalize hA : N / W = s at *
    generalize hB : N' / W = ms at *
    have hd : s + (ms - s) = ms := by omega
    have hfit : ∀ i, i < W - 1 → i * s + i * (ms - s) + s ≤ N' := by
      intro i hi
      have he : i * s + i * (ms - s) = i * ms := by
        rw [← Nat.mul_add, hd]
      have h2 : i * ms ≤ (W - 2) * ms :=
        Nat.mul_le_mul_right _ (by omega)
      have h3 : (W - 2) * ms + ms = (W - 1) * ms := by
        rw [show W - 1 = (W - 2) + 1 by omega, Nat.succ_mul]
      omega
    have hmap : (List.range (W - 1)).map (fun i =>
        min (i * s + i * (ms - s) + s) N' - (i * s + i * (ms - s))) =
        List.replicate (W - 1) s := by
      rw [show List.replicate (W - 1) s =
          (List.range (W - 1)).map (fun _ => s) by
        rw [List.map_const', List.length_range]]
      apply List.map_congr_left
      intro i hi
      rw [Nat.min_eq_left (hfit i (List.mem_range.1 hi))]
      omega
    simp only [List.map_append, List.map_map, List.map_cons, List.map_nil,
      List.sum_append, List.sum_cons, List.sum_nil, Function.comp_def]
    rw [hmap, List.sum_const_nat, Nat.min_eq_left hNN]
    omega

/-- When the cap does not bind (`Nperms = Nallperms`) — in particular in
every uncapped run — the slice list partitions `[0, Nperms)` exactly:
`maxslicesize = slicesize`, so the spread offsets degenerate to contiguous
ones.  The same holds for at most two workers, where the only spread
offset in play is `0`. -/
theorem slicesCore_exactCover (N N' W : Nat)
    (h : N = N' ∨ W ≤ 2) :
    exactCover (slicesCore N N' W) N := by
  intro k
  rcases Nat.lt_or_ge W 2 with hW | hW
  · -- one slice [0, N)
    rw [slicesCore_le_one N N' W hW]
    simp only [countCover, List.countP_cons, List.countP_nil, Nat.zero_add,
      decide_eq_true_eq]
    split_ifs <;> omega
  · have hgt : W > 1 := by omega
    rcases h with h | h
    · -- cap does not bind: maxslicesize = slicesize
      subst h
      rw [slicesCore_uncapped N W hgt]
      simp only [countCover, List.countP_append, List.countP_map,
        Function.comp_def]
      rw [countP_blocks (N / W) k (W - 1)]
      have hle : (W - 1) * (N / W) ≤ N := pred_mul_div_le N W
      simp only [List.countP_cons, List.countP_nil, Nat.zero_add,
        decide_eq_true_eq]
      split_ifs <;> omega
    · -- exactly two workers: slices [0, s) and [s, N)
      have hW2 : W = 2 := by omega
      subst hW2
      rw [slicesCore_two]
      have hs : N / 2 ≤ N := Nat.div_le_self N 2
      simp only [countCover, List.countP_cons, List.countP_nil,
        Nat.zero_add, decide_eq_true_eq]
      split_ifs <;> omega

/-- `overT` is the number of evaluated permutation indices whose
statistic meets the tail rule. -/
theorem overTOf_eq (x y : List ℚ) (tt : Bool) (mp : Option Nat)
    (mc : Option Int) (cc : Nat) :
    overTOf x y tt mp mc cc =
      (evaluatedIndices x y mp mc cc).countP
        (fun k => exceeds tt (obsTOf x y)
          (permStat (obsOf x y) (nthPerm (dmOf x y) k))) := by
  rw [overTOf, workerResults, evaluatedIndices, List.flatMap_def,
    List.countP_flatten, List.map_map, List.map_map]
  congr 1
  apply List.map_congr_left
  intro s _
  simp [run_permutations_eq, Function.comp]

/-- `maxT` is the seed-`0` `max`-fold of the statistics of all evaluated
permutation indices. -/
theorem maxTOf_eq (x y : List ℚ) (tt : Bool) (mp : Option Nat)
    (mc : Option Int) (cc : Nat) :
    maxTOf x y tt mp mc cc =
      ((evaluatedIndices x y mp mc cc).map
        (fun k => permStat (obsOf x y) (nthPerm (dmOf x y) k))).foldl max 0 := by
  have hmax : (fun (a b : ℚ) => if a < b then b else a) = max := by
    funext a b
    exact ite_lt_max a b
  rw [maxTOf, hmax, workerResults, evaluatedIndices, List.flatMap_def,
    List.map_flatten, ← foldl_max_flatten, List.map_map, List.map_map,
    List.map_map]
  congr 1
  apply List.map_congr_left
  intro s _
  simp [run_permutations_eq, Function.comp]

/-- How often index `k` occurs in a slice's evaluated index list. -/
theorem count_evalIdxs (dm : List Bool) (si ei k : Nat) :
    (evalIdxs dm si ei).count k =
      if si ≤ k ∧ k < min ei (Nat.factorial dm.length) then 1 else 0 := by
  unfold evalIdxs
  by_cases h : si ≤ k ∧ k < min ei (Nat.factorial dm.length)
  · rw [if_pos h]
    exact List.count_eq_one_of_mem (List.nodup_range' _ _)
      (by rw [List.mem_range'_1]; omega)
  · rw [if_neg h]
    exact List.count_eq_zero_of_not_mem
      (by rw [List.mem_range'_1]; omega)

/-- How often `k` occurs in `range N`. -/
theorem count_range_eq (N k : Nat) :
    (List.range N).count k = if k < N then 1 else 0 := by
  by_cases h : k < N
  · rw [if_pos h]
    exact List.count_eq_one_of_mem (List.nodup_range N) (List.mem_range.2 h)
  · rw [if_neg h]
    exact List.count_eq_zero_of_not_mem (fun hm => h (List.mem_range.1 hm))

/-- In an exact cover of `[0, N)`, every nonempty slice ends by `N`. -/
theorem exactCover_ei_le (l : List (Nat × Nat)) (N : Nat)
    (h : exactCover l N) : ∀ s ∈ l, s.1 < s.2 → s.2 ≤ N := by
  intro s hs hlt
  by_contra hgt
  have hmem : 0 < countCover l (s.2 - 1) := by
    rw [countCover, List.countP_pos_iff]
    exact ⟨s, hs, by simp only [decide_eq_true_eq]; omega⟩
  have := h (s.2 - 1)
  rw [this] at hmem
  split_ifs at hmem with hk
  · omega
  · omega

/-- When the cap does not bind, the multiset of evaluated permutation
indices is exactly `{0, …, Nperms - 1}` regardless of the worker count:
the slices partition the range and no slice reaches the enumeration's
truncation point. -/
theorem evaluatedIndices_perm (x y : List ℚ) (mp : Option Nat)
    (mc : Option Int) (cc : Nat)
    (h : NpermsOf x y mp = NallOf x y) :
    (evaluatedIndices x y mp mc cc).Perm
      (List.range (NpermsOf x y mp)) := by
  have hcov : exactCover (slicesOf x y mp mc cc) (NpermsOf x y mp) := by
    rw [slicesOf, h]
    exact slicesCore_exactCover (NallOf x y) (NallOf x y) _ (Or.inl rfl)
  have hF : Nat.factorial (dmOf x y).length = NallOf x y := by
    rw [dmOf_length]
    rfl
  rw [List.perm_iff_count]
  intro k
  rw [evaluatedIndices, List.flatMap_def, List.count_flatten,
    List.map_map, count_range_eq, ← hcov k, countCover, ← sum_ite_one]
  congr 1
  apply List.map_congr_left
  intro s hs
  simp only [Function.comp_def, decide_eq_true_eq]
  rw [count_evalIdxs, hF, ← h]
  by_cases hne : s.1 < s.2
  · have hle : s.2 ≤ NpermsOf x y mp :=
      exactCover_ei_le _ _ hcov s hs hne
    split_ifs <;> omega
  · split_ifs <;> omega

/-- `selectBy` distributes over aligned concatenations. -/
theorem selectBy_append (o₁ o₂ : List ℚ) (l₁ l₂ : List Bool) (b : Bool)
    (h : o₁.length = l₁.length) :
    selectBy (o₁ ++ o₂) (l₁ ++ l₂) b = selectBy o₁ l₁ b ++ selectBy o₂ l₂ b := by
  rw [selectBy, List.zip_append h, List.filterMap_append]
  rfl

/-- Selecting the matching label from a constant labeling keeps all
observations. -/
theorem selectBy_replicate_self (v : List ℚ) (b : Bool) :
    selectBy v (List.replicate v.length b) b = v := by
  induction v with
  | nil => rfl
  | cons a v ih =>
    rw [List.length_cons, List.replicate_succ,
      show selectBy (a :: v) (b :: List.replicate v.length b) b =
        a :: selectBy v (List.replicate v.length b) b from by
          simp [selectBy], ih]

/-- Selecting the other label from a constant labeling keeps nothing. -/
theorem selectBy_replicate_ne (v : List ℚ) (b b' : Bool) (h : b' ≠ b) :
    selectBy v (List.replicate v.length b') b = [] := by
  induction v with
  | nil => rfl
  | cons a v ih =>
    rw [List.length_cons, List.replicate_succ,
      show selectBy (a :: v) (b' :: List.replicate v.length b') b =
        selectBy v (List.replicate v.length b') b from by
          simp [selectBy, h], ih]

/-- The observed statistic is the difference of the sample means: the
selections `obs[dm==0]` and `obs[dm==1]` recover `x` and `y`. -/
theorem obsTOf_eq_means (x y : List ℚ) :
    obsTOf x y = mean x - mean y := by
  rw [obsTOf, permStat, obsOf, dmOf,
    selectBy_append x y _ _ false (by simp),
    selectBy_append x y _ _ true (by simp),
    selectBy_replicate_self, selectBy_replicate_self,
    selectBy_replicate_ne x true false (by simp),
    selectBy_replicate_ne y false true (by simp)]
  simp

/-- A `max`-fold seeded at `0` over strictly negative values is `0`. -/
theorem foldl_max_nonpos (l : List ℚ) (h : ∀ a ∈ l, a < 0) :
    l.foldl max 0 = 0 := by
  induction l with
  | nil => rfl
  | cons a l ih =>
    rw [List.foldl_cons,
      max_eq_left (le_of_lt (h a (List.mem_cons_self a l)))]
    exact ih (fun b hb => h b (List.mem_cons_of_mem a hb))

/-- The total number of permutation indices evaluated across all slices
is exactly `Nperms`, capped or not. -/
theorem evaluatedIndices_length (x y : List ℚ) (mp : Option Nat)
    (mc : Option Int) (cc : Nat) :
    (evaluatedIndices x y mp mc cc).length = NpermsOf x y mp := by
  have hF : Nat.factorial (dmOf x y).length = NallOf x y := by
    rw [dmOf_length]
    rfl
  rw [evaluatedIndices, List.flatMap_def, List.length_flatten,
    List.map_map]
  rw [show (List.length ∘ fun s : Nat × Nat => evalIdxs (dmOf x y) s.1 s.2) =
      (fun s : Nat × Nat => min s.2 (NallOf x y) - s.1) by
    funext s
    simp [evalIdxs, hF]]
  exact slicesCore_eval_length _ _ _ (NpermsOf_le_NallOf x y mp)

/-- `overT` never exceeds `Nperms`. -/
theorem overTOf_le (x y : List ℚ) (tt : Bool) (mp : Option Nat)
    (mc : Option Int) (cc : Nat) :
    overTOf x y tt mp mc cc ≤ NpermsOf x y mp := by
  rw [overTOf_eq, ← evaluatedIndices_length x y mp mc cc]
  exact List.countP_le_length _

/-- Some slice always evaluates permutation index `0` (as long as any
permutation is evaluated at all): either the first slice, whose spread
offset is `0`, or — when the per-worker width is `0` — the remainder
slice. -/
theorem zero_mem_evaluatedIndices (x y : List ℚ) (mp : Option Nat)
    (mc : Option Int) (cc : Nat) (hN : 1 ≤ NpermsOf x y mp) :
    0 ∈ evaluatedIndices x y mp mc cc := by
  have hF : Nat.factorial (dmOf x y).length = NallOf x y := by
    rw [dmOf_length]
    rfl
  have hNN : NpermsOf x y mp ≤ NallOf x y := NpermsOf_le_NallOf x y mp
  have hmem : ∀ ei : Nat, 1 ≤ ei → ei ≤ NallOf x y →
      0 ∈ evalIdxs (dmOf x y) 0 ei := by
    intro ei h1 h2
    rw [evalIdxs, List.mem_range'_1, hF]
    omega
  rw [evaluatedIndices, List.mem_flatMap]
  rcases Nat.lt_or_ge (cpusOf mc cc) 2 with hW | hW
  · refine ⟨(0, NpermsOf x y mp), ?_, ?_⟩
    · rw [slicesOf, slicesCore_le_one _ _ _ hW]
      exact List.mem_cons_self _ _
    · exact hmem _ hN hNN
  · have hgt : cpusOf mc cc > 1 := by omega
    rcases Nat.eq_zero_or_pos (NpermsOf x y mp / cpusOf mc cc) with hs | hs
    · -- zero width: the remainder slice starts at 0
      refine ⟨((cpusOf mc cc - 1) * (NpermsOf x y mp / cpusOf mc cc),
        NpermsOf x y mp), ?_, ?_⟩
      · rw [slicesOf, slicesCore_ge_two _ _ _ hgt]
        exact List.mem_append_right _ (List.mem_cons_self _ _)
      · rw [hs, Nat.mul_zero]
        exact hmem _ hN hNN
    · -- positive width: the first slice starts at 0
      refine ⟨(0 * (NpermsOf x y mp / cpusOf mc cc) +
          0 * (NallOf x y / cpusOf mc cc -
            NpermsOf x y mp / cpusOf mc cc),
        0 * (NpermsOf x y mp / cpusOf mc cc) +
          0 * (NallOf x y / cpusOf mc cc -
            NpermsOf x y mp / cpusOf mc cc) +
          NpermsOf x y mp / cpusOf mc cc), ?_, ?_⟩
      · rw [slicesOf, slicesCore_ge_two _ _ _ hgt]
        refine List.mem_append_left _ (List.mem_map.2 ⟨0, ?_, rfl⟩)
        exact List.mem_range.2 (by omega)
      · simp only [Nat.zero_mul, Nat.zero_add]
        exact hmem _ hs (le_trans (Nat.div_le_self _ _) hNN)

/-- A non-positive `maxcpu` slips past both guards and leaves `cpus = 0`. -/
theorem cpusOf_nonpos (m : Int) (cc : Nat) (hm : m ≤ 0) :
    cpusOf (some m) cc = 0 := by
  have h1 : ¬ ((some m : Option Int) = some 1) := by
    simp only [Option.some.injEq]
    omega
  rw [cpusOf, if_neg h1]
  by_cases h2 : m < (cc : Int)
  · rw [if_pos h2]
    exact Int.toNat_of_nonpos hm
  · rw [if_neg h2]
    omega

/-- `maxcpu = 1` short-circuits to a single worker. -/
theorem cpusOf_one (cc : Nat) : cpusOf (some 1) cc = 1 := by
  rw [cpusOf, if_pos rfl]

end Lemmas

section Claims

/-- **C1** (amended): the slice ranges are pairwise disjoint and cover
`[0, Nperms)` exactly whenever the cap does not bind
(`Nperms = Nallperms`, in particular whenever `max_permutations` is
absent or at least `n!`) or at most two workers are used.  When the cap
binds with three or more workers the spread starting offsets
`i * floor(Nall/W)` break the partition (see the counterexample). -/
theorem claim_C1_uncapped_partition (x y : List ℚ) (mp : Option Nat)
    (mc : Option Int) (cc : Nat)
    (h : NpermsOf x y mp = NallOf x y ∨ cpusOf mc cc ≤ 2) :
    exactCover (slicesOf x y mp mc cc) (NpermsOf x y mp) :=
  slicesCore_exactCover _ _ _ h

/-- Witness for C1: in an uncapped run with three workers, index `1` is
covered by exactly one slice. -/
theorem claim_C1_witness :
    countCover (slicesOf [(1 : ℚ)] [2] none (some 3) 4) 1 = 1 := by
  rw [claim_C1_uncapped_partition [(1 : ℚ)] [2] none (some 3) 4
    (Or.inl rfl) 1]
  decide

/-- Counterexample to C1 as stated: with `x, y` of length 2
(`Nall = 24`), `max_permutations = 10` and three workers, the computed
slices are `[0,3)`, `[8,11)`, `[6,10)` — index `8` is covered twice,
indices `3..5` not at all, and index `10 ≥ Nperms` is covered — so the
slices neither are disjoint nor cover `[0, Nperms)`. -/
theorem claim_C1_counterexample :
    ¬ exactCover (slicesOf [(1 : ℚ), 1] [1, 1] (some 10) (some 3) 4)
        (NpermsOf [(1 : ℚ), 1] [1, 1] (some 10)) :=
  fun h => absurd (h 8) (by decide)

/-- **C2** (amended): when the cap does not bind, all four returned
values are independent of the worker count (and of the host CPU count):
the evaluated permutation indices form the same multiset `[0, Nperms)`
for every worker count, and the reductions (`sum`, seeded `max`) are
permutation-invariant.  When the cap binds, different worker counts
evaluate different permutation subsets and `p`/`Tmax` can differ (see
the counterexample). -/
theorem claim_C2_worker_invariance (x y : List ℚ) (tt : Bool)
    (mp : Option Nat) (mc₁ mc₂ : Option Int) (cc₁ cc₂ : Nat)
    (h : NpermsOf x y mp = NallOf x y) :
    permutation_test x y tt mp mc₁ cc₁ = permutation_test x y tt mp mc₂ cc₂ := by
  have hperm : (evaluatedIndices x y mp mc₁ cc₁).Perm
      (evaluatedIndices x y mp mc₂ cc₂) :=
    (evaluatedIndices_perm x y mp mc₁ cc₁ h).trans
      (evaluatedIndices_perm x y mp mc₂ cc₂ h).symm
  have hover : overTOf x y tt mp mc₁ cc₁ = overTOf x y tt mp mc₂ cc₂ := by
    rw [overTOf_eq, overTOf_eq]
    exact hperm.countP_eq _
  have hmax : maxTOf x y tt mp mc₁ cc₁ = maxTOf x y tt mp mc₂ cc₂ := by
    rw [maxTOf_eq, maxTOf_eq]
    refine (hperm.map _).foldl_eq' ?_ 0
    intro a _ b _ z
    rw [max_assoc, max_comm a b, ← max_assoc]
  simp only [permutation_test, hover, hmax]

/-- Witness for C2: an uncapped run with one worker equals the same run
with two workers. -/
theorem claim_C2_witness :
    permutation_test [(1 : ℚ)] [2] true none (some 1) 2 =
      permutation_test [(1 : ℚ)] [2] true none (some 2) 2 :=
  claim_C2_worker_invariance [(1 : ℚ)] [2] true none (some 1) (some 2) 2 2 rfl

set_option maxRecDepth 100000 in
/-- Counterexample to C2 as stated: with `x = [1,2]`, `y = [3,4]`,
`max_permutations = 12`, one worker evaluates indices `0..11`
(`Tmax = 0`) while four workers evaluate `{0,1,2, 6,7,8, 12,13,14,
9,10,11}` (`Tmax = 1`), so the returned tuples differ. -/
theorem claim_C2_counterexample :
    permutation_test [(1 : ℚ), 2] [3, 4] true (some 12) (some 1) 4 ≠
      permutation_test [(1 : ℚ), 2] [3, 4] true (some 12) (some 4) 4 := by
  with_unfolding_all decide

/-- **C3**: the worker's exceed count is exactly the number of evaluated
permutation indices of its slice whose statistic — the mean of the
observations labelled `0` minus the mean of those labelled `1` — meets
the tail rule: `|stat| ≥ |obsT|` when two-tailed, `stat ≥ obsT`
otherwise. -/
theorem claim_C3_worker_rule (dm : List Bool) (si ei : Nat) (obs : List ℚ)
    (obsT : ℚ) (tt : Bool) :
    (run_permutations dm si ei obs obsT tt).2 =
      (evalIdxs dm si ei).countP (fun k =>
        let stat := mean (selectBy obs (nthPerm dm k) false) -
          mean (selectBy obs (nthPerm dm k) true)
        if tt then decide (|obsT| ≤ |stat|) else decide (obsT ≤ stat)) := by
  rw [run_permutations_eq]
  rfl

/-- **C4**: the worker's running maximum is seeded at `0`, so a slice of
strictly negative statistics reports local maximum exactly `0`; and the
returned `Tmax` is the seed-`0` `max`-fold — i.e. `max(0, ·)` — of the
statistics of all evaluated permutations. -/
theorem claim_C4_tmax_floor (dm : List Bool) (si ei : Nat) (obs : List ℚ)
    (obsT : ℚ) (tt : Bool) (x y : List ℚ) (tt' : Bool) (mp : Option Nat)
    (mc : Option Int) (cc : Nat)
    (hneg : ∀ k ∈ evalIdxs dm si ei, permStat obs (nthPerm dm k) < 0) :
    (run_permutations dm si ei obs obsT tt).1 = 0 ∧
    (∀ r : ℚ × ℚ × Nat × ℚ, permutation_test x y tt' mp mc cc = some r →
      r.2.2.2 = ((evaluatedIndices x y mp mc cc).map
        (fun k => permStat (obsOf x y) (nthPerm (dmOf x y) k))).foldl max 0) := by
  constructor
  · rw [run_permutations_eq]
    refine foldl_max_nonpos _ ?_
    intro a ha
    rcases List.mem_map.1 ha with ⟨k, hk, rfl⟩
    exact hneg k hk
  · intro r hr
    simp only [permutation_test] at hr
    by_cases hN : NpermsOf x y mp = 0
    · rw [if_pos hN] at hr
      cases hr
    · rw [if_neg hN] at hr
      rw [← Option.some.inj hr]
      exact maxTOf_eq x y tt' mp mc cc

/-- Witness for C4: the slice `[0, 1)` of `dm = [0, 1]` over
`obs = [1, 2]` has the single statistic `-1 < 0` and local maximum `0`;
and the run on `x = [1]`, `y = [2]` returns
`some (-1, 1, 2, 1)` whose `Tmax` is the `max`-fold of its statistics. -/
theorem claim_C4_witness :
    (run_permutations [false, true] 0 1 [1, 2] (-1) true).1 = 0 ∧
    ((-1 : ℚ), (1 : ℚ), (2 : Nat), (1 : ℚ)).2.2.2 =
      ((evaluatedIndices [(1 : ℚ)] [2] none (some 1) 1).map
        (fun k => permStat (obsOf [(1 : ℚ)] [2])
          (nthPerm (dmOf [(1 : ℚ)] [2]) k))).foldl max 0 :=
  ⟨(claim_C4_tmax_floor [false, true] 0 1 [1, 2] (-1) true [(1 : ℚ)] [2]
      true none (some 1) 1 (by with_unfolding_all decide)).1,
   (claim_C4_tmax_floor [false, true] 0 1 [1, 2] (-1) true [(1 : ℚ)] [2]
      true none (some 1) 1 (by with_unfolding_all decide)).2
      ((-1 : ℚ), (1 : ℚ), (2 : Nat), (1 : ℚ)) (by with_unfolding_all rfl)⟩

/-- **C5**: whenever the final division is defined (`Nperms ≠ 0`, which
holds for every contract-conforming input), the returned `p` equals
`overT / Nperms` — `overT` being the sum of the workers' exceed counts —
and `0 ≤ p ≤ 1`, because the slices evaluate exactly `Nperms` indices in
total even in capped runs. -/
theorem claim_C5_p_value (x y : List ℚ) (tt : Bool) (mp : Option Nat)
    (mc : Option Int) (cc : Nat) (hN : NpermsOf x y mp ≠ 0) :
    ∃ T Tm, permutation_test x y tt mp mc cc =
        some (T, (overTOf x y tt mp mc cc : ℚ) / (NpermsOf x y mp : ℚ),
          NpermsOf x y mp, Tm) ∧
      0 ≤ (overTOf x y tt mp mc cc : ℚ) / (NpermsOf x y mp : ℚ) ∧
      (overTOf x y tt mp mc cc : ℚ) / (NpermsOf x y mp : ℚ) ≤ 1 := by
  have hpos : (0 : ℚ) < (NpermsOf x y mp : ℚ) := by
    exact_mod_cast Nat.pos_of_ne_zero hN
  refine ⟨obsTOf x y, maxTOf x y tt mp mc cc, ?_, ?_, ?_⟩
  · simp only [permutation_test]
    rw [if_neg hN]
  · exact div_nonneg (Nat.cast_nonneg _) (Nat.cast_nonneg _)
  · rw [div_le_one hpos]
    exact_mod_cast overTOf_le x y tt mp mc cc

/-- Witness for C5 at `x = [1,2]`, `y = [3,4]`, two workers. -/
theorem claim_C5_witness :
    ∃ T Tm, permutation_test [(1 : ℚ), 2] [3, 4] true none (some 2) 2 =
        some (T, (overTOf [(1 : ℚ), 2] [3, 4] true none (some 2) 2 : ℚ) /
          (NpermsOf [(1 : ℚ), 2] [3, 4] none : ℚ),
          NpermsOf [(1 : ℚ), 2] [3, 4] none, Tm) ∧
      0 ≤ (overTOf [(1 : ℚ), 2] [3, 4] true none (some 2) 2 : ℚ) /
        (NpermsOf [(1 : ℚ), 2] [3, 4] none : ℚ) ∧
      (overTOf [(1 : ℚ), 2] [3, 4] true none (some 2) 2 : ℚ) /
        (NpermsOf [(1 : ℚ), 2] [3, 4] none : ℚ) ≤ 1 :=
  claim_C5_p_value [(1 : ℚ), 2] [3, 4] true none (some 2) 2 (by decide)

/-- Counterexample to C6 as stated: `max_workers = 0 ≤ 0` is not
rejected — the call completes normally (`none` models a raised
exception). -/
theorem claim_C6_counterexample :
    permutation_test [(1 : ℚ), 2] [3, 4] true none (some 0) 4 ≠ none := by
  simp only [permutation_test]
  rw [if_neg (by decide : ¬ (NpermsOf [(1 : ℚ), 2] [3, 4] none = 0))]
  exact Option.some_ne_none _

/-- **C6** (amended): `permutation_test` performs no input validation.
A non-positive `max_workers` is accepted: `cpus` ends up `0`, a single
slice `[0, Nperms)` is built exactly as for `max_workers = 1`, and the
call returns the same result (successfully whenever `Nperms ≠ 0`).
(Empty samples are likewise not rejected — numpy yields `NaN` means —
and a non-positive cap only fails at the final division, after all the
work; neither is an up-front invalid-input error.) -/
theorem claim_C6_no_validation (x y : List ℚ) (tt : Bool) (mp : Option Nat)
    (cc : Nat) (m : Int) (hm : m ≤ 0) :
    permutation_test x y tt mp (some m) cc =
      permutation_test x y tt mp (some 1) cc ∧
    (NpermsOf x y mp ≠ 0 →
      (permutation_test x y tt mp (some m) cc).isSome = true) := by
  have hs : slicesOf x y mp (some m) cc = slicesOf x y mp (some 1) cc := by
    rw [slicesOf, slicesOf, cpusOf_nonpos m cc hm, cpusOf_one,
      slicesCore_le_one _ _ 0 (by omega), slicesCore_le_one _ _ 1 (by omega)]
  constructor
  · simp only [permutation_test, overTOf, maxTOf, workerResults, hs]
  · intro hN
    simp only [permutation_test]
    rw [if_neg hN]
    rfl

/-- Witness for C6 (amended) at `max_workers = 0`. -/
theorem claim_C6_witness :
    permutation_test [(1 : ℚ), 2] [3, 4] true none (some 0) 4 =
      permutation_test [(1 : ℚ), 2] [3, 4] true none (some 1) 4 ∧
    (NpermsOf [(1 : ℚ), 2] [3, 4] none ≠ 0 →
      (permutation_test [(1 : ℚ), 2] [3, 4] true none (some 0) 4).isSome = true) :=
  claim_C6_no_validation [(1 : ℚ), 2] [3, 4] true none 4 0 (by decide)

/-- **C7**: with a positive cap (`max_permutations` is contractually a
positive integer), `Nperms = min(n!, cap)` when the cap is given and
`n!` otherwise; a cap below `n!` yields `Nperms = cap` exactly, and the
call completes without raising. -/
theorem claim_C7_cap (x y : List ℚ) (tt : Bool) (mc : Option Int) (cc : Nat)
    (m : Nat) (hm : 1 ≤ m) :
    NpermsOf x y (some m) = min (NallOf x y) m ∧
    NpermsOf x y none = NallOf x y ∧
    (m < NallOf x y → NpermsOf x y (some m) = m) ∧
    ∃ p Tm, permutation_test x y tt (some m) mc cc =
      some (obsTOf x y, p, NpermsOf x y (some m), Tm) := by
  have h1 : NpermsOf x y (some m) = min (NallOf x y) m := by
    simp only [NpermsOf]
    rcases Nat.lt_or_ge m (NallOf x y) with h | h
    · rw [if_pos h, Nat.min_eq_right (le_of_lt h)]
    · rw [if_neg (by omega), Nat.min_eq_left h]
  have hfac : 0 < NallOf x y := Nat.factorial_pos (x.length + y.length)
  have hN0 : NpermsOf x y (some m) ≠ 0 := by
    rw [h1]
    omega
  refine ⟨h1, rfl, fun h => by rw [h1, Nat.min_eq_right (le_of_lt h)], ?_⟩
  refine ⟨(overTOf x y tt (some m) mc cc : ℚ) / (NpermsOf x y (some m) : ℚ),
    maxTOf x y tt (some m) mc cc, ?_⟩
  simp only [permutation_test]
  rw [if_neg hN0]

/-- Witness for C7: `x = [1,2]`, `y = [3,4]`, cap `12 < 24`. -/
theorem claim_C7_witness :
    NpermsOf [(1 : ℚ), 2] [3, 4] (some 12) =
      min (NallOf [(1 : ℚ), 2] [3, 4]) 12 ∧
    NpermsOf [(1 : ℚ), 2] [3, 4] none = NallOf [(1 : ℚ), 2] [3, 4] ∧
    (12 < NallOf [(1 : ℚ), 2] [3, 4] →
      NpermsOf [(1 : ℚ), 2] [3, 4] (some 12) = 12) ∧
    ∃ p Tm, permutation_test [(1 : ℚ), 2] [3, 4] true (some 12) (some 2) 2 =
      some (obsTOf [(1 : ℚ), 2] [3, 4], p,
        NpermsOf [(1 : ℚ), 2] [3, 4] (some 12), Tm) :=
  claim_C7_cap [(1 : ℚ), 2] [3, 4] true (some 2) 2 12 (by decide)

/-- **C8** (amended): when the observed statistic is nonnegative, the
two-tailed exceed count dominates the one-tailed one, because
`stat ≥ obsT = |obsT|` forces `|stat| ≥ |obsT|`.  For a negative
observed statistic the inequality reverses (see the counterexample):
one-tailed then counts every statistic above a negative threshold. -/
theorem claim_C8_tail_monotone (x y : List ℚ) (mp : Option Nat)
    (mc : Option Int) (cc : Nat) (h : 0 ≤ obsTOf x y) :
    overTOf x y false mp mc cc ≤ overTOf x y true mp mc cc := by
  rw [overTOf_eq, overTOf_eq]
  apply List.countP_mono_left
  intro k _ hk
  simp only [exceeds, if_true, if_false, decide_eq_true_eq,
    Bool.false_eq_true, Bool.true_eq] at hk ⊢
  rw [abs_of_nonneg h]
  exact le_trans hk (le_abs_self _)

/-- Witness for C8 (amended): `x = [3,4]`, `y = [1,2]` has observed
statistic `2 ≥ 0`. -/
theorem claim_C8_witness :
    overTOf [(3 : ℚ), 4] [1, 2] false none (some 1) 1 ≤
      overTOf [(3 : ℚ), 4] [1, 2] true none (some 1) 1 :=
  claim_C8_tail_monotone [(3 : ℚ), 4] [1, 2] none (some 1) 1
    (by with_unfolding_all decide)

set_option maxRecDepth 100000 in
/-- Counterexample to C8 as stated: for `x = [1,2]`, `y = [3,4]`
(observed statistic `-2`), the one-tailed count over the full
enumeration is `24` (every statistic is `≥ -2`) while the two-tailed
count is `8`, so two-tailed is *not* `≥` one-tailed. -/
theorem claim_C8_counterexample :
    ¬ (overTOf [(1 : ℚ), 2] [3, 4] false none (some 1) 1 ≤
       overTOf [(1 : ℚ), 2] [3, 4] true none (some 1) 1) := by
  with_unfolding_all decide

/-- **C9**: the returned `T` is `mean x - mean y`: the label selections
`obs[dm==0]` and `obs[dm==1]` of the unpermuted design matrix recover
`x` and `y` exactly. -/
theorem claim_C9_observed_statistic (x y : List ℚ) (_hx : x ≠ [])
    (_hy : y ≠ []) :
    obsTOf x y = mean x - mean y ∧
    ∀ (tt : Bool) (mp : Option Nat) (mc : Option Int) (cc : Nat)
      (r : ℚ × ℚ × Nat × ℚ), permutation_test x y tt mp mc cc = some r →
        r.1 = mean x - mean y := by
  refine ⟨obsTOf_eq_means x y, ?_⟩
  intro tt mp mc cc r hr
  simp only [permutation_test] at hr
  by_cases hN : NpermsOf x y mp = 0
  · rw [if_pos hN] at hr
    cases hr
  · rw [if_neg hN] at hr
    rw [← Option.some.inj hr]
    exact obsTOf_eq_means x y

/-- Witness for C9: `x = [1,2,3]`, `y = [4,5,6]` gives `T = -3`. -/
theorem claim_C9_witness :
    obsTOf [(1 : ℚ), 2, 3] [4, 5, 6] =
      mean [(1 : ℚ), 2, 3] - mean [4, 5, 6] ∧
    obsTOf [(1 : ℚ), 2, 3] [4, 5, 6] = -3 :=
  ⟨(claim_C9_observed_statistic [(1 : ℚ), 2, 3] [4, 5, 6]
      (List.cons_ne_nil _ _) (List.cons_ne_nil _ _)).1,
   by with_unfolding_all rfl⟩

/-- **C10**: the slice starting at offset `0` (the first slice, or the
remainder slice when the per-worker width is `0`) evaluates permutation
index `0`, which is the unpermuted design matrix; its statistic equals
the observed statistic and satisfies both tail rules, so `overT ≥ 1` and
`p ≥ 1/Nperms > 0`. -/
theorem claim_C10_p_positive (x y : List ℚ) (tt : Bool) (mp : Option Nat)
    (mc : Option Int) (cc : Nat) (_hx : x ≠ []) (_hy : y ≠ [])
    (hN : 1 ≤ NpermsOf x y mp) :
    ∃ r : ℚ × ℚ × Nat × ℚ, permutation_test x y tt mp mc cc = some r ∧
      1 / (NpermsOf x y mp : ℚ) ≤ r.2.1 ∧ 0 < r.2.1 := by
  have hN0 : NpermsOf x y mp ≠ 0 := by omega
  have hpos : (0 : ℚ) < (NpermsOf x y mp : ℚ) := by
    exact_mod_cast Nat.pos_of_ne_zero hN0
  have hover : 1 ≤ overTOf x y tt mp mc cc := by
    rw [overTOf_eq]
    have hmem := zero_mem_evaluatedIndices x y mp mc cc hN
    have hp : exceeds tt (obsTOf x y)
        (permStat (obsOf x y) (nthPerm (dmOf x y) 0)) = true := by
      rw [nthPerm_zero]
      show exceeds tt (obsTOf x y) (obsTOf x y) = true
      cases tt
      · simp [exceeds]
      · simp [exceeds]
    exact List.countP_pos_iff.2 ⟨0, hmem, hp⟩
  have hover' : (1 : ℚ) ≤ (overTOf x y tt mp mc cc : ℚ) := by
    exact_mod_cast hover
  refine ⟨(obsTOf x y,
    (overTOf x y tt mp mc cc : ℚ) / (NpermsOf x y mp : ℚ),
    NpermsOf x y mp, maxTOf x y tt mp mc cc), ?_, ?_, ?_⟩
  · simp only [permutation_test]
    rw [if_neg hN0]
  · rw [div_le_div_iff_of_pos_right hpos]
    exact hover'
  · exact div_pos (lt_of_lt_of_le one_pos hover') hpos

/-- Witness for C10 at `x = [1]`, `y = [2]`: `p ≥ 1/2 > 0`. -/
theorem claim_C10_witness :
    ∃ r : ℚ × ℚ × Nat × ℚ,
      permutation_test [(1 : ℚ)] [2] true none (some 1) 1 = some r ∧
      1 / (NpermsOf [(1 : ℚ)] [2] none : ℚ) ≤ r.2.1 ∧ 0 < r.2.1 :=
  claim_C10_p_positive [(1 : ℚ)] [2] true none (some 1) 1
    (List.cons_ne_nil _ _) (List.cons_ne_nil _ _) (by decide)

end Claims

end AnalysisKit
